import Mathlib

/-!
Verification of the go-coder edit pipeline against its specification.

Go strings are modelled as lists of characters (`GoStr`); the programs
under study only ever index and measure ASCII text, where Go's byte
offsets coincide with character offsets.  Floating-point weights and
similarity ratios are modelled over `ℚ`.  External effects (the file
system, subprocess execution, the LLM callback) are modelled as explicit
state or oracle arguments.
-/

/-- Go `string`, as a list of characters (byte = char on the ASCII texts
the claims exercise). -/
abbrev GoStr := List Char

/-- Whitespace set of Go's `unicode.IsSpace`, restricted to ASCII. -/
def isGoSpace (c : Char) : Bool :=
  c = ' ' || c = '\t' || c = '\n' || c = '\r' ||
    c = Char.ofNat 11 || c = Char.ofNat 12

/-- Go `strings.TrimSpace`: drop leading and trailing whitespace. -/
def trimSpace (s : GoStr) : GoStr :=
  ((s.dropWhile isGoSpace).reverse.dropWhile isGoSpace).reverse

/-- Go `strings.Split(s, "\n")`. -/
def splitNl (s : GoStr) : List GoStr :=
  List.splitOn '\n' s

/-- Go `strings.Join(lines, "\n")`. -/
def joinNl (lines : List GoStr) : GoStr :=
  List.intercalate ['\n'] lines

/-- Embeds `collapseSpaces` from `internal/editor/matcher.go`: replace runs of
spaces and tabs with a single space.  The boolean tracks the `inSpace`
flag of the source loop. -/
def collapseSpacesAux : GoStr → Bool → GoStr
  | [], _ => []
  | c :: rest, inSpace =>
    if c = ' ' || c = '\t' then
      if inSpace then collapseSpacesAux rest true
      else ' ' :: collapseSpacesAux rest true
    else c :: collapseSpacesAux rest false

/-- Embeds `collapseSpaces` from `internal/editor/matcher.go`. -/
def collapseSpaces (s : GoStr) : GoStr :=
  collapseSpacesAux s false

/-- Go `strings.Index`: index of the first occurrence of `pat` in `s`,
`none` when absent (`some 0` for an empty pattern, as in Go). -/
def indexOfStr (s pat : GoStr) : Option Nat :=
  if pat.isPrefixOf s then some 0
  else
    match s with
    | [] => none
    | _ :: t => (indexOfStr t pat).map (· + 1)

/-- Go `strings.Contains`. -/
def containsStr (s pat : GoStr) : Bool :=
  (indexOfStr s pat).isSome

/-- Embeds `byteOffsetOfLine` from `internal/editor/matcher.go`: byte offset of
the start of line `idx` in the content reconstructed from `lines`. -/
def byteOffsetOfLine (lines : List GoStr) (idx : Nat) : Nat :=
  ((lines.take idx).map (fun l => l.length + 1)).sum

/-- Levenshtein distance between two strings (unit costs).  Models the
distance computed by `diffmatchpatch.DiffLevenshtein` over an optimal
diff. -/
def levDist (a b : GoStr) : ℕ :=
  levenshtein Levenshtein.defaultCost a b

/-- Embeds `similarity` from `internal/editor/matcher.go`:
`1 - distance / max(len a, len b)`, with the source's shortcuts for
equal and empty inputs. -/
def similarity (a b : GoStr) : ℚ :=
  if a = b then 1
  else if a = [] || b = [] then 0
  else 1 - (levDist a b : ℚ) / (max a.length b.length : ℕ)

/-- Embeds `types.MatchStage` from `pkg/types/edit.go`. -/
inductive MatchStage where
  | exact
  | whitespaceNormalized
  | fuzzy
  | noneStage
deriving DecidableEq, Repr

/-- Embeds `matchResult` from `internal/editor/matcher.go`. -/
structure MatchResult where
  start : Nat
  stop : Nat
  stage : MatchStage
  similarity : ℚ
deriving DecidableEq, Repr

/-- Embeds `exactMatch` from `internal/editor/matcher.go`: byte-for-byte
substring match via `strings.Index`. -/
def exactMatch (content search : GoStr) : Option MatchResult :=
  (indexOfStr content search).map fun idx =>
    ⟨idx, idx + search.length, .exact, 1⟩

/-- Embeds `normalizeLines` from `internal/editor/matcher.go`: split into lines,
drop a trailing empty line, trim and collapse each line. -/
def normalizeLines (s : GoStr) : List GoStr :=
  let lines := splitNl s
  let lines := if lines ≠ [] ∧ lines.getLast? = some [] then lines.dropLast else lines
  lines.map fun l => collapseSpaces (trimSpace l)

/-- Embeds `whitespaceNormalizedMatch` from `internal/editor/matcher.go`. -/
def whitespaceNormalizedMatch (content search : GoStr) : Option MatchResult :=
  let normSearchLines := normalizeLines search
  if normSearchLines = [] then none
  else
    let contentLines := splitNl content
    let normContentLines := contentLines.map fun l => collapseSpaces (trimSpace l)
    let searchLen := normSearchLines.length
    if searchLen ≤ normContentLines.length then
      ((List.range (normContentLines.length - searchLen + 1)).find? fun i =>
          (normContentLines.drop i).take searchLen = normSearchLines).map fun i =>
        ⟨byteOffsetOfLine contentLines i,
         byteOffsetOfLine contentLines (i + searchLen),
         .whitespaceNormalized, 1⟩
    else none

/-- One window of `searchLen` consecutive content lines starting at `i`,
joined with newlines (the `candidate` of `fuzzyMatch`). -/
def windowAt (contentLines : List GoStr) (searchLen i : Nat) : GoStr :=
  joinNl ((contentLines.drop i).take searchLen)

/-- The body of `fuzzyMatch`'s scanning loop: fold the candidate windows
left to right, keeping the first window whose similarity meets the
threshold and replacing it only on strictly greater similarity. -/
def fuzzyScan (contentLines : List GoStr) (search : GoStr) (searchLen : Nat)
    (threshold : ℚ) : Option MatchResult :=
  (List.range (contentLines.length - searchLen + 1)).foldl
    (fun best i =>
      let cand := windowAt contentLines searchLen i
      let sim := similarity cand search
      match best with
      | none =>
        if threshold ≤ sim then
          some ⟨byteOffsetOfLine contentLines i,
                byteOffsetOfLine contentLines i + cand.length, .fuzzy, sim⟩
        else none
      | some b =>
        if threshold ≤ sim ∧ b.similarity < sim then
          some ⟨byteOffsetOfLine contentLines i,
                byteOffsetOfLine contentLines i + cand.length, .fuzzy, sim⟩
        else some b)
    none

/-- Embeds `fuzzyMatch` from `internal/editor/matcher.go`. -/
def fuzzyMatch (content search : GoStr) (threshold : ℚ) : Option MatchResult :=
  if search = [] || content = [] then none
  else
    let contentLines := splitNl content
    let searchLen := (splitNl search).length
    if contentLines.length < searchLen then
      let sim := similarity content search
      if threshold ≤ sim then some ⟨0, content.length, .fuzzy, sim⟩ else none
    else
      fuzzyScan contentLines search searchLen threshold

/-- Embeds `findMatch` from `internal/editor/matcher.go`: the three stages in
order, first success wins. -/
def findMatch (content search : GoStr) (fuzzyThreshold : ℚ) : Option MatchResult :=
  match exactMatch content search with
  | some m => some m
  | none =>
    match whitespaceNormalizedMatch content search with
    | some m => some m
    | none => fuzzyMatch content search fuzzyThreshold

/-! ### Atomic write (`atomicWrite` in `internal/editor`) -/

/-- File-system contents: each path maps to the file's bytes, `none` when
the file does not exist.  Permissions are not modelled; the claims under
study are about contents only. -/
def FileSys := String → Option GoStr

/-- Update one path of a file system. -/
def FileSys.set (fs : FileSys) (p : String) (v : Option GoStr) : FileSys :=
  fun q => if q = p then v else fs q

/-- Outcome oracle for one `atomicWrite` call: `createTemp` is the fresh
temp path on success (`none` = `os.CreateTemp` failed); the booleans tell
whether the write, close, chmod and rename steps succeed. -/
structure WriteSteps where
  createTemp : Option String
  writeOk : Bool
  closeOk : Bool
  chmodOk : Bool
  renameOk : Bool

/-- Embeds `atomicWrite` from `internal/editor`: create a temp file in the
target's directory, write, close, chmod, rename; on any failure remove
the temp file and report the failing step.  Returns the resulting file
system and `some`-error message on failure. -/
def atomicWrite (fs : FileSys) (path : String) (data : GoStr)
    (st : WriteSteps) : FileSys × Option String :=
  match st.createTemp with
  | none => (fs, some "creating temp file")
  | some tmp =>
    let fs1 := fs.set tmp (some [])
    if !st.writeOk then (fs1.set tmp none, some "writing temp file")
    else
      let fs2 := fs1.set tmp (some data)
      if !st.closeOk then (fs2.set tmp none, some "closing temp file")
      else if !st.chmodOk then (fs2.set tmp none, some "setting permissions")
      else if !st.renameOk then (fs2.set tmp none, some "renaming temp file")
      else ((fs2.set tmp none).set path (some data), none)

/-! ### Edit-format parser (`internal/editformat/parser.go`) -/

/-- Embeds `types.Edit` (fields used by the parser). -/
structure Edit where
  filePath : GoStr
  oldContent : GoStr
  newContent : GoStr
  isCreate : Bool := false
deriving DecidableEq, Repr

/-- Embeds `editformat.ParseError`. -/
structure ParseErr where
  position : Nat
  rawText : GoStr
  message : String
deriving DecidableEq, Repr

/-- Embeds `editformat.ParseResult`.  `reasoningLines` collects, in order, the
lines the source feeds to `appendReasoning`; the final `ReasoningText`
string is assembled from them by `reasoningText` below. -/
structure ParseResult where
  edits : List Edit
  parseErrors : List ParseErr
  reasoningLines : List GoStr
  blocksFound : Nat
  blocksParsed : Nat
deriving DecidableEq, Repr

def markerSearch : GoStr := ("<<<<<<< SEARCH").toList

def markerDivider : GoStr := ("=======").toList

def markerReplace : GoStr := (">>>>>>> REPLACE").toList

/-- Embeds `isMarker`: the line equals the marker after trimming. -/
def isMarker (line marker : GoStr) : Bool :=
  trimSpace line = marker

/-- Embeds `isMarkdownFence`: the trimmed line starts with three backquotes. -/
def isMarkdownFence (line : GoStr) : Bool :=
  (String.toList "```").isPrefixOf (trimSpace line)

/-- Embeds `extractFilePath`: strip fences, backquotes and whitespace; reject
lines that read as prose (whitespace without a `/`). -/
def extractFilePath (line : GoStr) : GoStr :=
  let s := trimSpace line
  if isMarkdownFence s then []
  else
    let s := trimSpace ((s.dropWhile (· = '`')).reverse.dropWhile (· = '`')).reverse
    if (s.any fun c => c = ' ' || c = '\t') && !containsStr s ['/'] then []
    else s

/-- The `strings.Builder` accumulation used for search/replace text and
reasoning: a separating newline is written only when the builder is
already non-empty (so leading empty lines vanish, as in the source). -/
def builderJoin (lines : List GoStr) : GoStr :=
  lines.foldl (fun acc l => if acc.length > 0 then acc ++ '\n' :: l else acc ++ l) []

/-- First index `≥ 0` (relative) of a line in `r` matching `marker`. -/
def findMarker (r : List GoStr) (marker : GoStr) : Option Nat :=
  r.findIdx? fun l => isMarker l marker

/-- Embeds `reconstructBlock`: the raw text of lines `[start, stop)`. -/
def reconstructBlock (r : List GoStr) (count : Nat) : GoStr :=
  joinNl (r.take count)

/-- One step outcome of the parser loop, used to accumulate. -/
def ParseResult.consBlock (res : ParseResult) (reasoning : List GoStr)
    (edit : Option Edit) (err : Option ParseErr) : ParseResult :=
  { edits := (edit.toList) ++ res.edits
    parseErrors := (err.toList) ++ res.parseErrors
    reasoningLines := reasoning ++ res.reasoningLines
    blocksFound := res.blocksFound + 1
    blocksParsed := res.blocksParsed + (if edit.isSome then 1 else 0) }

/-- The main loop of `editformat.Parse`, recursing over the unprocessed
suffix `r` of the response's lines.  `prev` is the line immediately
before `r` (`none` at the start of the response), and `abs` is the
0-based index in the full line list of the first line of `r`; both are
needed because the file-path line of a block can be a line consumed by a
previous iteration, and `ParseError.Position` records an absolute
1-based line number.  `recur` ties the recursive knot: the fuelled
`parseLoop` below passes itself, and `parseLines` supplies fuel
`lines.length + 1`, which the loop (consuming at least one line per
iteration) never exhausts. -/
def parseLoopBody (recur : List GoStr → Option GoStr → Nat → ParseResult)
    (r : List GoStr) (prev : Option GoStr) (abs : Nat) : ParseResult :=
  match findMarker r markerSearch with
    | none => ⟨[], [], r, 0, 0⟩
    | some k =>
      -- Lines before the path line are reasoning text.
      let reasoning := r.take (k - 1)
      let filePath :=
        if k ≥ 1 then extractFilePath (r.get! (k - 1))
        else match prev with
          | some l => extractFilePath l
          | none => []
      let rest := r.drop (k + 1)
      match findMarker rest markerDivider with
      | none =>
        -- Unclosed block: `i` runs to the end of input and the outer
        -- loop finds no further marker.
        (⟨[], [], [], 0, 0⟩ : ParseResult).consBlock reasoning none
          (some ⟨abs + k + 1, reconstructBlock (r.drop k) (r.length - k),
                "unclosed block: missing ======= divider"⟩)
      | some d =>
        let searchText := builderJoin (rest.take d)
        let rest2 := rest.drop (d + 1)
        match findMarker rest2 markerReplace with
        | none =>
          (⟨[], [], [], 0, 0⟩ : ParseResult).consBlock reasoning none
            (some ⟨abs + k + 1, reconstructBlock (r.drop k) (r.length - k),
                  "unclosed block: missing >>>>>>> REPLACE marker"⟩)
        | some p =>
          let replaceText := builderJoin (rest2.take p)
          let afterReplace := rest2.drop (p + 1)
          let fenceSkipped := afterReplace.head?.elim false isMarkdownFence
          let rest3 := if fenceSkipped then afterReplace.drop 1 else afterReplace
          -- Number of lines consumed from the SEARCH marker onwards.
          let consumed := 1 + d + 1 + p + 1 + (if fenceSkipped then 1 else 0)
          let prevLine : Option GoStr :=
            if fenceSkipped then afterReplace.head? else rest2.get? p
          let tail := recur rest3 prevLine (abs + k + consumed)
          if filePath = [] then
            tail.consBlock reasoning none
              (some ⟨abs + k + 1, reconstructBlock (r.drop k) consumed,
                    "missing file path before <<<<<<< SEARCH marker"⟩)
          else
            let old := if searchText = [] then [] else searchText ++ ['\n']
            let new := if replaceText = [] then [] else replaceText ++ ['\n']
            tail.consBlock reasoning (some ⟨filePath, old, new, false⟩) none

/-- The fuelled parser loop: each level of fuel runs one iteration of
the outer loop of `editformat.Parse` (see `parseLoopBody`). -/
def parseLoop : Nat → List GoStr → Option GoStr → Nat → ParseResult
  | 0, _, _, _ => ⟨[], [], [], 0, 0⟩
  | fw + 1, r, prev, abs => parseLoopBody (parseLoop fw) r prev abs

/-- Run the parser loop over all lines of a response. -/
def parseLines (lines : List GoStr) : ParseResult :=
  parseLoop (lines.length + 1) lines none 0

/-- The final `ReasoningText`: builder-joined reasoning lines, trimmed. -/
def reasoningText (res : ParseResult) : GoStr :=
  trimSpace (builderJoin res.reasoningLines)

/-- Embeds `editformat.Parse`: `none` models the distinguished
`NoEditsFoundError` (blank response, or no block opened). -/
def Parse (response : GoStr) : Option ParseResult :=
  if trimSpace response = [] then none
  else if (parseLines (splitNl response)).blocksFound = 0 then none
  else some (parseLines (splitNl response))

/-! ### Verification pass (`internal/feedback`, `Verify`) -/

/-- Embeds `feedback.CompileError`. -/
structure CompileError where
  filePath : GoStr
  line : Nat
  column : Nat
  message : GoStr
deriving DecidableEq, Repr

/-- Embeds `feedback.VerifyResult`. -/
structure VerifyResult where
  buildOK : Bool
  vetOK : Bool
  testOK : Bool
  errors : List CompileError
  buildOut : GoStr
  vetOut : GoStr
  testOutput : GoStr
deriving DecidableEq, Repr

/-- Embeds `VerifyResult.Success`: all three stages passed. -/
def VerifyResult.success (r : VerifyResult) : Bool :=
  r.buildOK && r.vetOK && r.testOK

/-- Leading decimal digits of a line (`≥ 1` digit), with the rest. -/
def parseDigits (s : GoStr) : Option (Nat × GoStr) :=
  let digits := s.takeWhile Char.isDigit
  if digits = [] then none
  else some (digits.foldl (fun n c => n * 10 + (c.toNat - 48)) 0, s.drop digits.length)

/-- Parse the tail of an error line after the file name against
`:(\d+)(?::(\d+))?: (.+)` (anchored to the end of the line).  Returns
`(line, column, message)`, column `0` when the optional group is absent,
as in `parseCompileErrors`. -/
def parseLineTail (s : GoStr) : Option (Nat × Nat × GoStr) :=
  match s with
  | ':' :: rest =>
    match parseDigits rest with
    | none => none
    | some (ln, r1) =>
      -- Optional `:(\d+)` group first, then the mandatory `: ` and message.
      (match r1 with
       | ':' :: r2 =>
         match parseDigits r2 with
         | some (col, ':' :: ' ' :: msg) => if msg = [] then none else some (ln, col, msg)
         | _ => none
       | _ => none).orElse fun _ =>
        match r1 with
        | ':' :: ' ' :: msg => if msg = [] then none else some (ln, 0, msg)
        | _ => none
  | _ => none

/-- Match one trimmed line against the Go error regex
`^(.+?\.go):(\d+)(?::(\d+))?: (.+)$`: the lazy group takes the shortest
prefix ending in `.go` whose remainder parses. -/
def matchErrorLine (line : GoStr) : Option CompileError :=
  ((List.range (line.length + 1)).find? fun p =>
      4 ≤ p && (String.toList ".go").isSuffixOf (line.take p) &&
        (parseLineTail (line.drop p)).isSome).bind fun p =>
    (parseLineTail (line.drop p)).map fun (ln, col, msg) =>
      ⟨line.take p, ln, col, msg⟩

/-- Embeds `parseCompileErrors`: scan each trimmed non-empty output line. -/
def parseCompileErrors (output : GoStr) : List CompileError :=
  (splitNl output).filterMap fun l =>
    let l := trimSpace l
    if l = [] then none else matchErrorLine l

/-- Outcomes of the three external commands run by one verification
pass: combined output and exit success for build, vet and test.
Command assembly, timeouts and the subprocess machinery are external
I/O and are abstracted into this oracle. -/
structure CmdRunner where
  build : GoStr × Bool
  vet : GoStr × Bool
  test : GoStr × Bool

/-- Embeds `feedback.VerifyConfig` (the field the control flow inspects). -/
structure VerifyConfig where
  testCmd : GoStr

/-- Embeds `feedback.Verify`: build, then vet, then test, with the source's
early returns.  The zero-valued `VerifyResult{TestOK: true}` literal is
the first line of the function. -/
def Verify (cfg : VerifyConfig) (run : CmdRunner) : VerifyResult :=
  let r0 : VerifyResult := ⟨false, false, true, [], [], [], []⟩
  let r1 := { r0 with buildOut := run.build.1, buildOK := run.build.2 }
  if !r1.buildOK then
    { r1 with errors := parseCompileErrors r1.buildOut }
  else
    let r2 := { r1 with vetOut := run.vet.1, vetOK := run.vet.2 }
    let r2 := if !r2.vetOK then { r2 with errors := r2.errors ++ parseCompileErrors r2.vetOut }
              else r2
    if cfg.testCmd = [] then r2
    else if !r2.vetOK then { r2 with testOK := false }
    else { r2 with testOutput := run.test.1, testOK := run.test.2 }

/-! ### Verify/retry loop (`internal/feedback/loop.go`) -/

/-- Embeds `feedback.LoopResult` (token usage elided: the loop never writes it). -/
structure LoopResult where
  success : Bool
  retries : Nat
  finalOK : Bool
  modifiedFiles : List String
deriving DecidableEq, Repr

/-- One step of the `seen`-guarded append used by `mergeFiles` (and by
the insertion-ordered enumeration of Go maps): append `x` unless already
present. -/
def addNew {α : Type} [DecidableEq α] (acc : List α) (x : α) : List α :=
  if x ∈ acc then acc else acc ++ [x]

/-- Embeds `mergeFiles` from `loop.go`: append the files of `additional` that
are not already present (the `seen` set is exactly the set of elements
of the accumulated list). -/
def mergeFiles (existing additional : List String) : List String :=
  additional.foldl addNew existing

/-- Oracles driving one run of the loop: `verify n` is the success of the
`n`-th verification pass (`0` = the initial one), `cancelled i` the
context state checked at the top of retry iteration `i`, and `retryFn i`
the file list returned by the retry callback at iteration `i` (`none` =
the callback failed). -/
structure LoopEnv where
  verify : Nat → Bool
  cancelled : Nat → Bool
  retryFn : Nat → Option (List String)

/-- The retry loop of `feedback.Run`, starting at iteration `i` with
`remaining` iterations left; `st` carries the accumulated state. -/
def runRetries (env : LoopEnv) (maxRetries : Nat) :
    Nat → Nat → LoopResult → LoopResult × Option GoStr
  | 0, _, st =>
    (st, some ((String.toList "max retries (") ++ (Nat.repr maxRetries).toList ++
      (String.toList ") exhausted with remaining errors")))
  | remaining + 1, i, st =>
    if env.cancelled i then
      (st, some ((String.toList "context canceled after ") ++
        (Nat.repr st.retries).toList ++ (String.toList " retries")))
    else
      let st := { st with retries := st.retries + 1 }
      match env.retryFn i with
      | none =>
        (st, some ((String.toList "retry ") ++ (Nat.repr st.retries).toList ++
          (String.toList " failed")))
      | some files =>
        let st := { st with modifiedFiles := mergeFiles st.modifiedFiles files }
        let ok := env.verify (i + 1)
        let st := { st with finalOK := ok }
        if ok then ({ st with success := true }, none)
        else runRetries env maxRetries remaining (i + 1) st

/-- Embeds `feedback.Run`: the initial verification, then up to `MaxRetries` retry
iterations (`MaxRetries = 0` selects the default of 3). -/
def Run (cfgMaxRetries : Nat) (env : LoopEnv) (initialFiles : List String) :
    LoopResult × Option GoStr :=
  let maxRetries := if cfgMaxRetries = 0 then 3 else cfgMaxRetries
  let st0 : LoopResult := ⟨false, 0, env.verify 0, initialFiles⟩
  if env.verify 0 then ({ st0 with success := true }, none)
  else runRetries env maxRetries maxRetries 0 st0

/-! ### Reference graph (`internal/repomap`, `BuildGraph`) -/

/-- Embeds `types.RefKind`. -/
inductive RefKind where
  | definition
  | reference
deriving DecidableEq, Repr

/-- Embeds `types.SymbolRef`. -/
structure SymbolRef where
  name : GoStr
  filePath : String
  line : Nat
  kind : RefKind
deriving DecidableEq, Repr

/-- Embeds `repomap.Edge`. -/
structure Edge where
  fromFile : String
  toFile : String
  reference : GoStr
  weight : ℚ
deriving DecidableEq, Repr

/-- The `defs` index of `BuildGraph`: for each symbol name, the list of
file paths of its `Definition` entries, in input order (one entry per
definition occurrence, files repeated). -/
def defsOf (symbols : List SymbolRef) (name : GoStr) : List String :=
  symbols.filterMap fun s =>
    if s.kind = .definition ∧ s.name = name then some s.filePath else none

/-- Embeds `identifierWeight`: `0.1` for `_`-prefixed names, `1.0` for names of
length `≥ 8`, else `0.5`. -/
def identifierWeight (name : GoStr) : ℚ :=
  if name.head? = some '_' then 1/10
  else if 8 ≤ name.length then 1
  else 1/2

/-- Embeds `commonWeight`: `0.1` when the symbol's definition list has `≥ 5`
entries, else `1.0`. -/
def commonWeight (name : GoStr) (symbols : List SymbolRef) : ℚ :=
  if 5 ≤ (defsOf symbols name).length then 1/10 else 1

/-- Keep the first occurrence of each element, in order (the element set
of a Go map keyed by the element, enumerated in insertion order). -/
def firstDedup {α : Type} [DecidableEq α] (l : List α) : List α :=
  l.foldl addNew []

/-- The `(from, to, symbol)` key occurrences generated by the edge-count
loop of `BuildGraph`: one per (reference occurrence, defining-file list
entry) pair, self-references skipped. -/
def edgeKeyOccurrences (symbols : List SymbolRef) : List (String × String × GoStr) :=
  symbols.flatMap fun s =>
    if s.kind = .reference then
      ((defsOf symbols s.name).filter (fun d => d ≠ s.filePath)).map
        fun d => (s.filePath, d, s.name)
    else []

/-- Embeds `edgeCounts[key]` of `BuildGraph`. -/
def edgeCount (symbols : List SymbolRef) (key : String × String × GoStr) : Nat :=
  (edgeKeyOccurrences symbols).count key

/-- The weighted edge list of `BuildGraph` (keys enumerated in first-
occurrence order; the Go map's enumeration order is unspecified, and no
claim depends on it). -/
def buildGraphEdges (symbols : List SymbolRef) : List Edge :=
  (firstDedup (edgeKeyOccurrences symbols)).map fun key =>
    ⟨key.1, key.2.1, key.2.2,
     (edgeCount symbols key : ℚ) * identifierWeight key.2.2 *
       commonWeight key.2.2 symbols⟩

/-- Node list of `BuildGraph`: every file path that appears. -/
def buildGraphNodes (symbols : List SymbolRef) : List String :=
  firstDedup (symbols.map (·.filePath))

/-! ### Commit-message generation (`internal/git`, part of prd008 R3) -/

/-- The ordered keyword table `commitTypes`. -/
def commitTypes : List (List GoStr × GoStr) :=
  [(["fix", "bug", "repair", "patch", "resolve", "correct"].map String.toList,
    ("fix").toList),
   (["refactor", "restructure", "reorganize", "clean up", "simplify"].map String.toList,
    ("refactor").toList),
   (["test", "spec", "coverage"].map String.toList, ("test").toList),
   (["doc", "comment", "readme", "documentation"].map String.toList, ("docs").toList),
   (["style", "format", "lint", "whitespace"].map String.toList, ("style").toList),
   (["perf", "performance", "optimize", "speed"].map String.toList, ("perf").toList),
   (["ci", "pipeline", "workflow", "github action"].map String.toList, ("ci").toList),
   (["build", "dependency", "deps", "module"].map String.toList, ("build").toList),
   (["chore", "cleanup", "maintain"].map String.toList, ("chore").toList),
   (["add", "create", "implement", "new", "feature", "introduce"].map String.toList,
    ("feat").toList)]

/-- Embeds `unicode.IsLetter` on the single bytes `containsWord` inspects,
restricted to ASCII. -/
def goIsLetter (c : Char) : Bool :=
  ('a' ≤ c && c ≤ 'z') || ('A' ≤ c && c ≤ 'Z')

/-- The scanning loop of `containsWord`: find the next occurrence of the
(non-empty) keyword at or after `idx`; accept it when both neighbours
are non-letters, otherwise resume just after its start.  Fuel bounds the
recursion; `containsWord` passes `text.length + 1`, enough for any
non-empty keyword since the scan position strictly increases. -/
def containsWordAux (text : GoStr) (kw : GoStr) : Nat → Nat → Bool
  | 0, _ => false
  | fw + 1, idx =>
    match indexOfStr (text.drop idx) kw with
    | none => false
    | some i =>
      let start := idx + i
      let stop := start + kw.length
      let leftOK := start = 0 || !goIsLetter (text.getD (start - 1) ' ')
      let rightOK := stop = text.length || !goIsLetter (text.getD stop ' ')
      if leftOK && rightOK then true
      else containsWordAux text kw fw (start + 1)

/-- Embeds `containsWord` from `internal/git`: whole-word containment for
single-word keywords, plain substring containment for keywords holding a
space. -/
def containsWord (text kw : GoStr) : Bool :=
  if containsStr kw [' '] then containsStr text kw
  else containsWordAux text kw (text.length + 1) 0

/-- Embeds `inferCommitType`: first table entry one of whose keywords the
lowercased prompt contains. -/
def inferCommitType (prompt : GoStr) : GoStr :=
  let lower := prompt.map Char.toLower
  match commitTypes.find? (fun ct => ct.1.any fun kw => containsWord lower kw) with
  | some ct => ct.2
  | none => ("feat").toList

/-- Embeds `buildSubject`: `none` models the index-out-of-range panic on
`summary[:1]` when the trimmed prompt is empty. -/
def buildSubject (commitType prompt : GoStr) : Option GoStr :=
  match trimSpace prompt with
  | [] => none
  | c :: rest =>
    let summary := (Char.toLower c :: rest).reverse.dropWhile (· = '.') |>.reverse
    let subject := commitType ++ (": ").toList ++ summary
    some (if 72 < subject.length then subject.take 69 ++ ("...").toList else subject)

/-- Embeds `buildBody`: the `Modified files:` block. -/
def buildBody (modifiedFiles : List GoStr) : GoStr :=
  if modifiedFiles = [] then []
  else
    (String.toList "Modified files:\n") ++
      modifiedFiles.flatMap fun f => ('-' :: ' ' :: f) ++ ['\n']

/-- Embeds `coAuthorTrailer` from `internal/git/git.go`. -/
def coAuthorTrailer : GoStr :=
  ("Co-Authored-By: go-coder <noreply@go-coder>").toList

/-- Embeds `GenerateMessage`: subject, optional body, trailer; `none` models the
panic propagated out of `buildSubject`. -/
def GenerateMessage (prompt : GoStr) (modifiedFiles : List GoStr) : Option GoStr :=
  (buildSubject (inferCommitType prompt) prompt).map fun subject =>
    let body := buildBody modifiedFiles
    let msg := if body ≠ [] then subject ++ (String.toList "\n\n") ++ body else subject
    msg ++ (String.toList "\n\n") ++ coAuthorTrailer

/-! ### Helper lemmas -/

lemma containsStr_of_prefixOf (s pat : GoStr) (h : pat.isPrefixOf s = true) :
    containsStr s pat = true := by
  unfold containsStr indexOfStr
  rw [h]
  rfl

lemma trimSpace_eq_nil_iff (s : GoStr) :
    trimSpace s = [] ↔ ∀ c ∈ s, isGoSpace c := by
  unfold trimSpace
  constructor
  · intro h c hc
    by_contra hns
    have h1 : s.dropWhile isGoSpace ≠ [] := by
      intro hnil
      rw [List.dropWhile_eq_nil_iff] at hnil
      exact hns (hnil c hc)
    have h2 : ∀ x ∈ (s.dropWhile isGoSpace).reverse.dropWhile isGoSpace, isGoSpace x := by
      have := congrArg List.reverse h
      simp only [List.reverse_reverse, List.reverse_nil] at this
      rw [this]
      intro x hx
      exact absurd hx (List.not_mem_nil x)
    -- The first element of `dropWhile isGoSpace s` is not a space, yet it
    -- survives into the doubly-trimmed list, which is empty: contradiction.
    obtain ⟨a, as, ha⟩ := List.exists_cons_of_ne_nil h1
    have hhead : isGoSpace a = false := by
      have := List.head?_dropWhile_not isGoSpace s
      rw [ha] at this
      simp at this
      exact this
    have hmem : a ∈ (s.dropWhile isGoSpace).reverse.dropWhile isGoSpace ∨
        a ∈ ((s.dropWhile isGoSpace).reverse.takeWhile isGoSpace) := by
      have : a ∈ (s.dropWhile isGoSpace).reverse := by
        rw [ha]; simp
      rw [← List.takeWhile_append_dropWhile (p := isGoSpace)
        (l := (s.dropWhile isGoSpace).reverse)] at this
      rcases List.mem_append.mp this with h' | h'
      · exact Or.inr h'
      · exact Or.inl h'
    rcases hmem with h' | h'
    · exact absurd (h2 a h') (by simp [hhead])
    · exact absurd (List.mem_takeWhile_imp h') (by simp [hhead])
  · intro h
    have h1 : s.dropWhile isGoSpace = [] := by
      rw [List.dropWhile_eq_nil_iff]
      exact h
    rw [h1]
    rfl

/-! ### C1: atomicity of the text applier's writes -/

/-- C1: for every atomic write, if any step before the final rename fails
(temp-file creation, write, close, or chmod — and likewise the rename
itself), the temporary file is removed, an error is returned, and the
target's content equals its pre-call content; only a successful rename
changes the target, and no other path is disturbed. -/
theorem atomicWrite_atomic (fs : FileSys) (path : String) (data : GoStr)
    (st : WriteSteps) (hfresh : ∀ t, st.createTemp = some t → fs t = none) :
    (((atomicWrite fs path data st).2.isSome = true →
        (atomicWrite fs path data st).1 path = fs path ∧
        ∀ t, st.createTemp = some t → (atomicWrite fs path data st).1 t = none) ∧
      ((atomicWrite fs path data st).2 = none →
        (atomicWrite fs path data st).1 path = some data) ∧
      (∀ q, q ≠ path → (∀ t, st.createTemp = some t → q ≠ t) →
        (atomicWrite fs path data st).1 q = fs q)) := by
  obtain ⟨ct, w, c, m, r⟩ := st
  cases ct with
  | none =>
    refine ⟨fun _ => ⟨rfl, ?_⟩, fun h => ?_, fun q _ _ => rfl⟩
    · intro t ht; exact absurd ht (by simp)
    · simp [atomicWrite] at h
  | some tmp =>
    have hf : fs tmp = none := hfresh tmp rfl
    cases w <;> cases c <;> cases m <;> cases r <;>
      refine ⟨fun herr => ⟨?_, ?_⟩, fun hok => ?_, fun q hq hqt => ?_⟩ <;>
      simp_all [atomicWrite, FileSys.set]

/-- Witness for C1: a failing write step leaves the (absent) target
absent and removes the temp file. -/
theorem atomicWrite_atomic_witness :
    ((∀ t, (WriteSteps.mk (some "t") false true true true).createTemp = some t →
        (fun _ => none : FileSys) t = none) ∧
      ((atomicWrite (fun _ => none) "f" ['a'] ⟨some "t", false, true, true, true⟩).2.isSome = true →
        (atomicWrite (fun _ => none) "f" ['a'] ⟨some "t", false, true, true, true⟩).1 "f" = none ∧
        ∀ t, (WriteSteps.mk (some "t") false true true true).createTemp = some t →
          (atomicWrite (fun _ => none) "f" ['a'] ⟨some "t", false, true, true, true⟩).1 t = none)) :=
  ⟨fun _ _ => rfl,
   (atomicWrite_atomic (fun _ => none) "f" ['a'] ⟨some "t", false, true, true, true⟩
      (fun _ _ => rfl)).1⟩

/-! ### C3: the verification pass invariant -/

/-- C3: every `VerifyResult` satisfies `success ⇔ build ∧ vet ∧ test`,
and when the build fails the vet and test stages are skipped: `VetOut`
is empty, `VetOK` is false, and the result does not consult the vet or
test commands at all. -/
theorem verify_success_invariant (cfg : VerifyConfig) (run : CmdRunner) :
    ((Verify cfg run).success =
        ((Verify cfg run).buildOK && (Verify cfg run).vetOK && (Verify cfg run).testOK)) ∧
      ((Verify cfg run).buildOK = false →
        (Verify cfg run).vetOut = [] ∧ (Verify cfg run).vetOK = false ∧
        ∀ vet' test', Verify cfg ⟨run.build, vet', test'⟩ = Verify cfg run) := by
  obtain ⟨⟨bout, bok⟩, v, t⟩ := run
  refine ⟨rfl, fun hb => ?_⟩
  cases bok with
  | false => exact ⟨rfl, rfl, fun _ _ => rfl⟩
  | true =>
    exfalso
    revert hb
    simp [Verify]
    split <;> simp_all <;> split <;> simp_all

/-- Witness for C3, at a runner whose build fails. -/
theorem verify_success_invariant_witness :
    (Verify ⟨[]⟩ ⟨(('e' :: []), false), ([], true), ([], true)⟩).vetOut = [] ∧
      (Verify ⟨[]⟩ ⟨(('e' :: []), false), ([], true), ([], true)⟩).vetOK = false ∧
      ∀ vet' test', Verify ⟨[]⟩ ⟨(('e' :: []), false), vet', test'⟩ =
        Verify ⟨[]⟩ ⟨(('e' :: []), false), ([], true), ([], true)⟩ :=
  (verify_success_invariant ⟨[]⟩ ⟨(('e' :: []), false), ([], true), ([], true)⟩).2 rfl

/-! ### C10: commit-message generation panics exactly on blank prompts -/

/-- C10: `GenerateMessage` panics (modelled as `none`) exactly when the
task prompt is empty or all-whitespace, because `buildSubject` indexes
the first character of the trimmed prompt; on any prompt with a
non-whitespace character it returns normally. -/
theorem generateMessage_panic_iff (prompt : GoStr) (files : List GoStr) :
    (GenerateMessage prompt files).isNone = true ↔ ∀ c ∈ prompt, isGoSpace c := by
  rw [← trimSpace_eq_nil_iff]
  unfold GenerateMessage buildSubject
  cases h : trimSpace prompt with
  | nil => simp [h]
  | cons c rest => simp [h]

/-- Witness for C10: blank prompt panics, non-blank returns normally. -/
theorem generateMessage_panic_iff_witness :
    ((GenerateMessage ((" ").toList) []).isNone = true) ∧
      ¬ (GenerateMessage (("Fix it").toList) []).isNone = true :=
  ⟨(generateMessage_panic_iff ((" ").toList) []).mpr (by decide),
   fun h => by
    have := (generateMessage_panic_iff (("Fix it").toList) []).mp h
    exact absurd (this 'F' (by decide)) (by decide)⟩

/-! ### C6: the parser's block-count invariant -/

lemma parseLoopBody_counts (recur : List GoStr → Option GoStr → Nat → ParseResult)
    (hrec : ∀ r prev abs, (recur r prev abs).blocksFound =
      (recur r prev abs).blocksParsed + (recur r prev abs).parseErrors.length)
    (r : List GoStr) (prev : Option GoStr) (abs : Nat) :
    (parseLoopBody recur r prev abs).blocksFound =
      (parseLoopBody recur r prev abs).blocksParsed +
        (parseLoopBody recur r prev abs).parseErrors.length := by
  unfold parseLoopBody
  cases h1 : findMarker r markerSearch with
  | none => rfl
  | some k =>
    cases h2 : findMarker (List.drop (k + 1) r) markerDivider with
    | none =>
      simp only [h2]
      simp [ParseResult.consBlock]
    | some d =>
      simp only [h2]
      cases h3 : findMarker (List.drop (d + 1) (List.drop (k + 1) r)) markerReplace with
      | none =>
        simp only [h3]
        simp [ParseResult.consBlock]
      | some p =>
        simp only [h3]
        repeat' split
        all_goals simp [ParseResult.consBlock, hrec]
        all_goals omega

lemma parseLoop_counts (fw : Nat) :
    ∀ (r : List GoStr) (prev : Option GoStr) (abs : Nat),
      (parseLoop fw r prev abs).blocksFound =
        (parseLoop fw r prev abs).blocksParsed +
          (parseLoop fw r prev abs).parseErrors.length := by
  induction fw with
  | zero => intro r prev abs; rfl
  | succ fw ih =>
    intro r prev abs
    exact parseLoopBody_counts (parseLoop fw) ih r prev abs

/-- C6: whenever `Parse` returns a result (rather than the distinguished
no-edits-found error), each opened SEARCH block contributed exactly one
parsed edit or exactly one parse error:
`blocksFound = blocksParsed + |parseErrors|`. -/
theorem parse_block_counts (response : GoStr) (res : ParseResult)
    (h : Parse response = some res) :
    res.blocksFound = res.blocksParsed + res.parseErrors.length := by
  unfold Parse at h
  split at h
  · exact absurd h (by simp)
  · split at h
    · exact absurd h (by simp)
    · cases h
      exact parseLoop_counts _ _ _ _



def c6resp : GoStr :=
  ("thinking\nfile.txt\n<<<<<<< SEARCH\nold\n=======\nnew\n>>>>>>> REPLACE\n").toList

def c6res : ParseResult :=
  ⟨[⟨("file.txt").toList, ("old\n").toList, ("new\n").toList, false⟩],
   [], [("thinking").toList, []], 1, 1⟩

/-- Witness for C6, at a one-block response. -/
theorem parse_block_counts_witness :
    Parse c6resp = some c6res ∧
      c6res.blocksFound = c6res.blocksParsed + c6res.parseErrors.length :=
  ⟨by decide, parse_block_counts c6resp c6res (by decide)⟩

/-! ### C4 and C8: the verify/retry loop -/

lemma isPrefixOf_append_self (l r : GoStr) : l.isPrefixOf (l ++ r) = true := by
  induction l with
  | nil => cases r <;> rfl
  | cons c t ih => simp [List.isPrefixOf, ih]

lemma addNew_foldl_nodup {α : Type} [DecidableEq α] :
    ∀ (l : List α) (acc : List α), acc.Nodup → (l.foldl addNew acc).Nodup := by
  intro l
  induction l with
  | nil => intro acc h; exact h
  | cons x t ih =>
    intro acc h
    simp only [List.foldl_cons]
    apply ih
    unfold addNew
    split
    · exact h
    · simp [List.nodup_append, h]
      assumption

lemma addNew_foldl_nodup_eq {α : Type} [DecidableEq α] :
    ∀ (l : List α) (acc : List α), (acc ++ l).Nodup → l.foldl addNew acc = acc ++ l := by
  intro l
  induction l with
  | nil => intro acc _; simp
  | cons x t ih =>
    intro acc h
    have h3 := List.nodup_append.mp h
    have hx : x ∉ acc := fun hmem => (h3.2.2 hmem) (List.mem_cons_self x t)
    simp only [List.foldl_cons]
    rw [addNew, if_neg hx]
    rw [ih (acc ++ [x]) (by simpa [List.append_assoc] using h)]
    simp

lemma firstDedup_nodup {α : Type} [DecidableEq α] (l : List α) :
    (firstDedup l).Nodup :=
  addNew_foldl_nodup l [] (by simp)

lemma firstDedup_of_nodup {α : Type} [DecidableEq α] (l : List α) (h : l.Nodup) :
    firstDedup l = l := by
  have := addNew_foldl_nodup_eq l [] (by simpa using h)
  simpa [firstDedup] using this

lemma mergeFiles_firstDedup (X Y : List String) :
    mergeFiles (firstDedup X) Y = firstDedup (X ++ Y) := by
  unfold mergeFiles firstDedup
  rw [List.foldl_append]

/-- The files accumulated by `runRetries` are always a first-occurrence
dedup of the initial list followed by the callback results in order. -/
lemma runRetries_files (env : LoopEnv) (M : Nat) (init : List String) :
    ∀ (remaining i : Nat) (st : LoopResult),
      st.modifiedFiles =
        firstDedup (init ++ (List.range i).flatMap fun j => (env.retryFn j).getD []) →
      ∃ k, (runRetries env M remaining i st).1.modifiedFiles =
        firstDedup (init ++ (List.range k).flatMap fun j => (env.retryFn j).getD []) := by
  intro remaining
  induction remaining with
  | zero => intro i st h; exact ⟨i, h⟩
  | succ rem ih =>
    intro i st h
    unfold runRetries
    split
    · exact ⟨i, h⟩
    · cases hf : env.retryFn i with
      | none => simp only [hf]; exact ⟨i, h⟩
      | some files =>
        have hmerge :
            mergeFiles st.modifiedFiles files =
              firstDedup (init ++ (List.range (i + 1)).flatMap fun j =>
                (env.retryFn j).getD []) := by
          rw [h, mergeFiles_firstDedup, List.range_succ]
          simp [hf, List.append_assoc]
        simp only [hf]
        split
        · exact ⟨i + 1, hmerge⟩
        · exact ih (i + 1) _ hmerge

/-- C8 (amended): provided the initial list is duplicate-free, the loop's
returned `modified_files` is an order-preserving deduplicating union:
each file appears exactly once, at the position of its first appearance
in the initial list followed by the per-iteration callback lists.  (A
duplicated initial list is passed through unchanged, see the
counterexample.) -/
theorem run_modified_files_union (cfgMax : Nat) (env : LoopEnv)
    (init : List String) (hnd : init.Nodup) :
    (Run cfgMax env init).1.modifiedFiles.Nodup ∧
      ∃ k, (Run cfgMax env init).1.modifiedFiles =
        firstDedup (init ++ (List.range k).flatMap fun j => (env.retryFn j).getD []) := by
  have hbase : init = firstDedup (init ++ (List.range 0).flatMap fun j =>
      (env.retryFn j).getD []) := by
    simp [firstDedup_of_nodup init hnd]
  have hform : ∃ k, (Run cfgMax env init).1.modifiedFiles =
      firstDedup (init ++ (List.range k).flatMap fun j => (env.retryFn j).getD []) := by
    unfold Run
    repeat' split
    all_goals first
      | exact ⟨0, hbase⟩
      | exact runRetries_files env _ init _ 0 _ hbase
  obtain ⟨k, hk⟩ := hform
  exact ⟨hk ▸ firstDedup_nodup _, k, hk⟩

def c8env : LoopEnv := ⟨fun _ => true, fun _ => false, fun _ => some []⟩

/-- Counterexample to C8 as stated: with a duplicated initial list the
loop returns a list containing `"a"` twice, so the result is not a
deduplicating union for *every* initial list. -/
theorem run_modified_files_counterexample :
    (Run 1 c8env ["a", "a"]).1.modifiedFiles = ["a", "a"] ∧
      (Run 1 c8env ["a", "a"]).1.modifiedFiles.count "a" = 2 := by
  constructor <;> rfl

/-- Witness for the amended C8 at a concrete duplicate-free input. -/
theorem run_modified_files_union_witness :
    (["f"] : List String).Nodup ∧
      ((Run 1 c8env ["f"]).1.modifiedFiles.Nodup ∧
        ∃ k, (Run 1 c8env ["f"]).1.modifiedFiles =
          firstDedup (["f"] ++ (List.range k).flatMap fun j => (c8env.retryFn j).getD [])) :=
  ⟨by decide, run_modified_files_union 1 c8env ["f"] (by decide)⟩

/-- If the re-verification after retry `d` (counting from the loop
position `i`) is the first to succeed, the loop stops there with
success. -/
lemma runRetries_first_success (env : LoopEnv) (M : Nat)
    (hnc : ∀ i, env.cancelled i = false)
    (hrf : ∀ i, (env.retryFn i).isSome = true) :
    ∀ (d remaining i : Nat) (st : LoopResult), d < remaining →
      (∀ e, e < d → env.verify (i + e + 1) = false) →
      env.verify (i + d + 1) = true →
      (runRetries env M remaining i st).1.success = true ∧
        (runRetries env M remaining i st).1.retries = st.retries + d + 1 ∧
        (runRetries env M remaining i st).2 = none := by
  intro d
  induction d with
  | zero =>
    intro remaining i st hrem hfalse hv
    obtain ⟨rem, rfl⟩ := Nat.exists_eq_add_of_lt hrem
    obtain ⟨files, hf⟩ := Option.isSome_iff_exists.mp (hrf i)
    rw [show 0 + rem + 1 = rem + 1 by omega]
    unfold runRetries
    rw [hnc i, if_neg (by simp)]
    simp only [hf]
    rw [show i + 0 + 1 = i + 1 by omega] at hv
    simp only [hv, if_pos rfl]
    exact ⟨rfl, rfl, rfl⟩
  | succ d ih =>
    intro remaining i st hrem hfalse hv
    obtain ⟨rem, rfl⟩ := Nat.exists_eq_add_of_lt hrem
    rw [show d + 1 + rem + 1 = (d + rem + 1) + 1 by omega]
    obtain ⟨files, hf⟩ := Option.isSome_iff_exists.mp (hrf i)
    unfold runRetries
    rw [hnc i, if_neg (by simp)]
    simp only [hf]
    have hv0 : env.verify (i + 1) = false := by
      have := hfalse 0 (by omega)
      simpa using this
    simp only [hv0]
    rw [if_neg (by simp)]
    have hrec := ih (d + rem + 1) (i + 1)
      { st with
        retries := st.retries + 1,
        finalOK := false,
        modifiedFiles := mergeFiles st.modifiedFiles files }
      (by omega)
      (fun e he => by
        rw [show i + 1 + e + 1 = i + (e + 1) + 1 by omega]
        exact hfalse (e + 1) (by omega))
      (by rw [show i + 1 + d + 1 = i + (d + 1) + 1 by omega]; exact hv)
    refine ⟨hrec.1, ?_, hrec.2.2⟩
    rw [hrec.2.1]
    dsimp only
    omega

/-- If every re-verification in the window fails, the loop exhausts its
budget and reports the max-retries error. -/
lemma runRetries_exhaust (env : LoopEnv) (M : Nat)
    (hnc : ∀ i, env.cancelled i = false)
    (hrf : ∀ i, (env.retryFn i).isSome = true) :
    ∀ (remaining i : Nat) (st : LoopResult),
      (∀ e, e < remaining → env.verify (i + e + 1) = false) →
      (runRetries env M remaining i st).1.success = st.success ∧
        (runRetries env M remaining i st).1.retries = st.retries + remaining ∧
        (runRetries env M remaining i st).2 =
          some ((String.toList "max retries (") ++ (Nat.repr M).toList ++
            (String.toList ") exhausted with remaining errors")) := by
  intro remaining
  induction remaining with
  | zero => intro i st _; exact ⟨rfl, rfl, rfl⟩
  | succ rem ih =>
    intro i st hfalse
    obtain ⟨files, hf⟩ := Option.isSome_iff_exists.mp (hrf i)
    unfold runRetries
    rw [hnc i, if_neg (by simp)]
    simp only [hf]
    have hv0 : env.verify (i + 1) = false := by simpa using hfalse 0 (by omega)
    simp only [hv0]
    rw [if_neg (by simp)]
    have hrec := ih (i + 1)
      { st with
        retries := st.retries + 1,
        finalOK := false,
        modifiedFiles := mergeFiles st.modifiedFiles files }
      (fun e he => by
        rw [show i + 1 + e + 1 = i + (e + 1) + 1 by omega]
        exact hfalse (e + 1) (by omega))
    refine ⟨hrec.1, ?_, hrec.2.2⟩
    rw [hrec.2.1]
    dsimp only
    omega

/-- C4: with a positive configured `MaxRetries`, no cancellation and a
callback that never fails: an initially successful verification returns
success with `retries = 0` without consulting the callback; if the
re-verification after the `i`-th retry is the first to succeed the loop
returns success with `retries = i`; and if all `MaxRetries`
re-verifications fail it returns `success = false`,
`retries = MaxRetries` and an error message containing
`"max retries"`. -/
theorem run_retry_semantics (cfgMax : Nat) (env : LoopEnv) (init : List String)
    (hpos : 0 < cfgMax)
    (hnc : ∀ i, env.cancelled i = false)
    (hrf : ∀ i, (env.retryFn i).isSome = true) :
    ((env.verify 0 = true →
        Run cfgMax env init =
          ({ success := true, retries := 0, finalOK := true, modifiedFiles := init }, none) ∧
        ∀ rf', Run cfgMax ⟨env.verify, env.cancelled, rf'⟩ init = Run cfgMax env init) ∧
      (∀ i, 1 ≤ i → i ≤ cfgMax → (∀ j, j < i → env.verify j = false) →
        env.verify i = true →
        (Run cfgMax env init).1.success = true ∧
          (Run cfgMax env init).1.retries = i ∧ (Run cfgMax env init).2 = none) ∧
      ((∀ j, j ≤ cfgMax → env.verify j = false) →
        (Run cfgMax env init).1.success = false ∧
          (Run cfgMax env init).1.retries = cfgMax ∧
          ∃ msg, (Run cfgMax env init).2 = some msg ∧
            containsStr msg (("max retries").toList) = true)) := by
  have hM : (if cfgMax = 0 then 3 else cfgMax) = cfgMax := by
    rw [if_neg (by omega)]
  refine ⟨fun hv => ?_, fun i h1 h2 hfalse hv => ?_, fun hall => ?_⟩
  · constructor
    · unfold Run
      rw [hv, if_pos rfl]
    · intro rf'
      unfold Run
      rw [hv]
      rfl
  · have hv0 : env.verify 0 = false := hfalse 0 (by omega)
    unfold Run
    rw [hv0, if_neg (by simp), hM]
    have := runRetries_first_success env cfgMax hnc hrf (i - 1) cfgMax 0
      ⟨false, 0, false, init⟩ (by omega)
      (fun e he => by rw [show 0 + e + 1 = e + 1 by omega]; exact hfalse (e + 1) (by omega))
      (by rw [show 0 + (i - 1) + 1 = i by omega]; exact hv)
    refine ⟨this.1, ?_, this.2.2⟩
    rw [this.2.1]
    dsimp only
    omega
  · have hv0 : env.verify 0 = false := hall 0 (by omega)
    unfold Run
    rw [hv0, if_neg (by simp), hM]
    have := runRetries_exhaust env cfgMax hnc hrf cfgMax 0
      ⟨false, 0, false, init⟩
      (fun e he => by rw [show 0 + e + 1 = e + 1 by omega]; exact hall (e + 1) (by omega))
    refine ⟨this.1, by rw [this.2.1]; dsimp only; omega, ?_⟩
    refine ⟨_, this.2.2, ?_⟩
    apply containsStr_of_prefixOf
    have hsplit : (String.toList "max retries (") =
        (("max retries").toList) ++ ((" (").toList) := by decide
    rw [hsplit, List.append_assoc]
    exact isPrefixOf_append_self _ _

def c4env : LoopEnv :=
  ⟨fun n => n == 1, fun _ => false, fun _ => some ["g"]⟩

/-- Witness for C4: one failing verification, then a successful retry. -/
theorem run_retry_semantics_witness :
    (0 < 2) ∧
      ((Run 2 c4env ["f"]).1.success = true ∧
        (Run 2 c4env ["f"]).1.retries = 1 ∧ (Run 2 c4env ["f"]).2 = none) :=
  ⟨by decide,
   (run_retry_semantics 2 c4env ["f"] (by decide) (fun _ => rfl) (fun _ => rfl)).2.1
     1 (by decide) (by decide) (by decide) (by decide)⟩

/-! ### C7: reference-graph edge weights -/

/-- C7 (amended): every edge's weight is
`c · identifier_weight(R) · commonness_weight(R)` with `c` the occurrence
count of its `(from, to, symbol)` key — but `commonness_weight(R)` is
`0.1` exactly when `R` has at least five *definition occurrences* (its
`defs` list counts files with multiplicity), not five distinct files. -/
theorem buildGraph_edge_weight (symbols : List SymbolRef) (e : Edge)
    (he : e ∈ buildGraphEdges symbols) :
    e.weight = (edgeCount symbols (e.fromFile, e.toFile, e.reference) : ℚ) *
        identifierWeight e.reference * commonWeight e.reference symbols ∧
      commonWeight e.reference symbols =
        (if 5 ≤ (defsOf symbols e.reference).length then (1 : ℚ)/10 else 1) := by
  unfold buildGraphEdges at he
  obtain ⟨key, hk, rfl⟩ := List.mem_map.mp he
  exact ⟨rfl, rfl⟩

def c7syms : List SymbolRef :=
  [⟨['s'], "a", 1, .definition⟩, ⟨['s'], "a", 2, .definition⟩,
   ⟨['s'], "a", 3, .definition⟩, ⟨['s'], "a", 4, .definition⟩,
   ⟨['s'], "a", 5, .definition⟩, ⟨['s'], "b", 6, .reference⟩]

def c7edge : Edge :=
  ⟨"b", "a", ['s'],
   (edgeCount c7syms ("b", "a", ['s']) : ℚ) * identifierWeight ['s'] *
     commonWeight ['s'] c7syms⟩

/-- Counterexample to C7 as stated: a symbol defined five times in one
single file still gets commonness weight `0.1`, although it is defined
in only one distinct file; the resulting edge weight matches neither
value the distinct-file reading would allow. -/
theorem buildGraph_commonness_counterexample :
    buildGraphEdges c7syms = [c7edge] ∧
      edgeCount c7syms ("b", "a", ['s']) = 5 ∧
      (firstDedup (defsOf c7syms ['s'])).length = 1 ∧
      commonWeight ['s'] c7syms = (1 : ℚ)/10 ∧
      identifierWeight ['s'] = (1 : ℚ)/2 ∧
      ((5 : ℚ) * ((1 : ℚ)/2) * ((1 : ℚ)/10) ≠ (5 : ℚ) * ((1 : ℚ)/2) * 1) ∧
      ((5 : ℚ) * ((1 : ℚ)/2) * ((1 : ℚ)/10) ≠ (1 : ℚ) * ((1 : ℚ)/2) * 1) := by
  refine ⟨rfl, by decide, by decide, rfl, rfl, by norm_num, by norm_num⟩

/-- Witness for the amended C7 at the concrete graph above. -/
theorem buildGraph_edge_weight_witness :
    c7edge ∈ buildGraphEdges c7syms ∧
      (c7edge.weight = (edgeCount c7syms (c7edge.fromFile, c7edge.toFile, c7edge.reference) : ℚ) *
          identifierWeight c7edge.reference * commonWeight c7edge.reference c7syms ∧
        commonWeight c7edge.reference c7syms =
          (if 5 ≤ (defsOf c7syms c7edge.reference).length then (1 : ℚ)/10 else 1)) :=
  ⟨List.Mem.head _, buildGraph_edge_weight c7syms c7edge (List.Mem.head _)⟩

/-! ### C2: stage monotonicity -/

/-- C2 (amended): if Stage Exact matches, `findMatch` returns the exact
match's byte range — the later stages are never consulted (and, run on
the same inputs, they may report a different byte range or no match at
all, see the counterexample). -/
theorem findMatch_exact_first (content search : GoStr) (t : ℚ) (m : MatchResult)
    (h : exactMatch content search = some m) :
    findMatch content search t = some m := by
  unfold findMatch
  rw [h]

/-- Counterexample to C2 as stated: `"ab\n"` occurs exactly in
`"x ab\nab\n"` at bytes `[2, 5)`, mid-line, while the
whitespace-normalized stage matches the line-aligned occurrence at
bytes `[5, 8)` — a different range. -/
theorem matcher_monotonicity_counterexample :
    exactMatch (("x ab\nab\n").toList) (("ab\n").toList) =
      some ⟨2, 5, .exact, 1⟩ ∧
      whitespaceNormalizedMatch (("x ab\nab\n").toList) (("ab\n").toList) =
        some ⟨5, 8, .whitespaceNormalized, 1⟩ ∧
      ¬ ((5, 8) = (2, 5)) :=
  ⟨by decide, by decide, by decide⟩

/-- Witness for the amended C2. -/
theorem findMatch_exact_first_witness :
    exactMatch (("ab").toList) (("a").toList) = some ⟨0, 1, .exact, 1⟩ ∧
      findMatch (("ab").toList) (("a").toList) 1 = some ⟨0, 1, .exact, 1⟩ :=
  ⟨by decide, findMatch_exact_first _ _ 1 _ (by decide)⟩

/-! ### C9: commit-subject generation -/

/-- A whole-word occurrence of `kw` in `text` at position `s`: `kw` is a
prefix of the suffix at `s` and both neighbours (when present) are
non-letters — the boundary checks of `containsWord`. -/
def wordOccAt (text kw : GoStr) (s : Nat) : Bool :=
  kw.isPrefixOf (text.drop s) &&
    (decide (s = 0) || !goIsLetter (text.getD (s - 1) ' ')) &&
    (decide (s + kw.length = text.length) || !goIsLetter (text.getD (s + kw.length) ' '))

/-- Whole-word containment as the spec words it (for every keyword):
some position carries a whole-word occurrence. -/
def containsWholeWord (text kw : GoStr) : Bool :=
  (List.range (text.length + 1)).any fun s => wordOccAt text kw s

/-- The spec's reading of the keyword table match: whole-word for every
keyword, including the multi-word ones. -/
def inferCommitTypeSpec (prompt : GoStr) : GoStr :=
  let lower := prompt.map Char.toLower
  match commitTypes.find? (fun ct => ct.1.any fun kw => containsWholeWord lower kw) with
  | some ct => ct.2
  | none => ("feat").toList

/-- The amended matching rule: whole-word for single-word keywords,
substring containment for keywords holding a space. -/
def keywordMatches (text kw : GoStr) : Bool :=
  if containsStr kw [' '] then containsStr text kw else containsWholeWord text kw

/-- Commit-type inference under the amended matching rule. -/
def inferCommitTypeAmended (prompt : GoStr) : GoStr :=
  let lower := prompt.map Char.toLower
  match commitTypes.find? (fun ct => ct.1.any fun kw => keywordMatches lower kw) with
  | some ct => ct.2
  | none => ("feat").toList

lemma isPrefixOf_nil_false (kw : GoStr) (hk : kw ≠ []) :
    kw.isPrefixOf ([] : GoStr) = false := by
  cases kw with
  | nil => exact absurd rfl hk
  | cons c t => rfl

lemma indexOfStr_some_prefixOf :
    ∀ (s pat : GoStr) (i : Nat), indexOfStr s pat = some i →
      pat.isPrefixOf (s.drop i) = true := by
  intro s
  induction s with
  | nil =>
    intro pat i h
    unfold indexOfStr at h
    split at h
    · cases h; assumption
    · exact absurd h (by simp)
  | cons c t ih =>
    intro pat i h
    unfold indexOfStr at h
    split at h
    · cases h; assumption
    · dsimp only at h
      rw [Option.map_eq_some'] at h
      obtain ⟨j, hj, rfl⟩ := h
      simpa using ih pat j hj

lemma indexOfStr_none_prefixOf :
    ∀ (s pat : GoStr), indexOfStr s pat = none →
      ∀ j, pat.isPrefixOf (s.drop j) = false := by
  intro s
  induction s with
  | nil =>
    intro pat h j
    unfold indexOfStr at h
    split at h
    · exact absurd h (by simp)
    · rename_i hnp
      simp only [List.drop_nil]
      cases hp : pat.isPrefixOf ([] : GoStr)
      · rfl
      · exfalso
        cases pat with
        | nil => exact hnp rfl
        | cons c t => exact absurd hp (by simp [List.isPrefixOf])
  | cons c t ih =>
    intro pat h j
    unfold indexOfStr at h
    split at h
    · exact absurd h (by simp)
    · rename_i hnp
      dsimp only at h
      rw [Option.map_eq_none'] at h
      cases j with
      | zero =>
        simpa using Bool.not_eq_true _ |>.mp hnp
      | succ k => simpa using ih pat h k

lemma indexOfStr_min_prefixOf :
    ∀ (s pat : GoStr) (i : Nat), indexOfStr s pat = some i →
      ∀ j, j < i → pat.isPrefixOf (s.drop j) = false := by
  intro s
  induction s with
  | nil =>
    intro pat i h j hj
    unfold indexOfStr at h
    split at h
    · cases h; omega
    · exact absurd h (by simp)
  | cons c t ih =>
    intro pat i h j hj
    unfold indexOfStr at h
    split at h
    · cases h; omega
    · rename_i hnp
      dsimp only at h
      rw [Option.map_eq_some'] at h
      obtain ⟨i', hi', rfl⟩ := h
      cases j with
      | zero =>
        simpa using Bool.not_eq_true _ |>.mp hnp
      | succ k => simpa using ih pat i' hi' k (by omega)

lemma prefixOf_indexOfStr_some :
    ∀ (s pat : GoStr) (j : Nat), pat.isPrefixOf (s.drop j) = true →
      ∃ i, indexOfStr s pat = some i ∧ i ≤ j := by
  intro s
  induction s with
  | nil =>
    intro pat j h
    simp only [List.drop_nil] at h
    have hpat : pat = [] := by
      cases pat with
      | nil => rfl
      | cons c t => exact absurd h (by simp [List.isPrefixOf])
    subst hpat
    exact ⟨0, rfl, by omega⟩
  | cons c t ih =>
    intro pat j h
    by_cases hp : pat.isPrefixOf (c :: t) = true
    · exact ⟨0, by unfold indexOfStr; rw [if_pos hp], by omega⟩
    · cases j with
      | zero => exact absurd h hp
      | succ k =>
        obtain ⟨i, hi, hle⟩ := ih pat k (by simpa using h)
        refine ⟨i + 1, ?_, by omega⟩
        unfold indexOfStr
        rw [if_neg hp]
        show (indexOfStr t pat).map (· + 1) = some (i + 1)
        rw [hi]
        rfl

lemma isPrefixOf_length_le :
    ∀ (p l : GoStr), p.isPrefixOf l = true → p.length ≤ l.length := by
  intro p
  induction p with
  | nil => intro l _; simp
  | cons c t ih =>
    intro l h
    cases l with
    | nil => exact absurd h (by simp [List.isPrefixOf])
    | cons d u =>
      simp only [List.isPrefixOf, Bool.and_eq_true] at h
      simpa using Nat.succ_le_succ (ih u h.2)

lemma wordOccAt_parts {text kw : GoStr} {s : Nat} (h : wordOccAt text kw s = true) :
    kw.isPrefixOf (text.drop s) = true ∧
      (decide (s = 0) || !goIsLetter (text.getD (s - 1) ' ')) = true ∧
      (decide (s + kw.length = text.length) || !goIsLetter (text.getD (s + kw.length) ' ')) = true := by
  unfold wordOccAt at h
  simp only [Bool.and_eq_true] at h
  exact ⟨h.1.1, h.1.2, h.2⟩

lemma containsWordAux_iff (text kw : GoStr) (hk : kw ≠ []) :
    ∀ (fw idx : Nat), text.length + 1 - idx ≤ fw →
      (containsWordAux text kw fw idx = true ↔
        ∃ s, idx ≤ s ∧ wordOccAt text kw s = true) := by
  intro fw
  induction fw with
  | zero =>
    intro idx hfuel
    constructor
    · intro h
      exact absurd h (by simp [containsWordAux])
    · rintro ⟨s, hs, hocc⟩
      exfalso
      have hpre := (wordOccAt_parts hocc).1
      have hd : text.drop s = [] := List.drop_eq_nil_of_le (by omega)
      rw [hd, isPrefixOf_nil_false kw hk] at hpre
      exact absurd hpre (by simp)
  | succ fw ih =>
    intro idx hfuel
    unfold containsWordAux
    cases hidx : indexOfStr (text.drop idx) kw with
    | none =>
      simp only [hidx]
      constructor
      · intro h
        exact absurd h (by simp)
      · rintro ⟨s, hs, hocc⟩
        exfalso
        have hpre := (wordOccAt_parts hocc).1
        have hp2 : kw.isPrefixOf ((text.drop idx).drop (s - idx)) = true := by
          rw [List.drop_drop, show idx + (s - idx) = s by omega]
          exact hpre
        rw [indexOfStr_none_prefixOf _ _ hidx (s - idx)] at hp2
        exact absurd hp2 (by simp)
    | some i =>
      simp only [hidx]
      have hpre0 := indexOfStr_some_prefixOf _ _ _ hidx
      have hpre : kw.isPrefixOf (text.drop (idx + i)) = true := by
        rw [← List.drop_drop]
        exact hpre0
      have hidx_le : idx ≤ text.length := by
        by_contra hgt
        have hd : text.drop idx = [] := List.drop_eq_nil_of_le (by omega)
        rw [hd] at hidx
        have : indexOfStr ([] : GoStr) kw = none := by
          unfold indexOfStr
          rw [isPrefixOf_nil_false kw hk]
          simp
        rw [this] at hidx
        exact absurd hidx (by simp)
      have hklen : 1 ≤ kw.length := by
        cases kw with
        | nil => exact absurd rfl hk
        | cons c t => simp
      have hbound : idx + i + kw.length ≤ text.length := by
        have h1 := isPrefixOf_length_le _ _ hpre
        rw [List.length_drop] at h1
        omega
      split
      · rename_i hb
        constructor
        · intro _
          refine ⟨idx + i, by omega, ?_⟩
          unfold wordOccAt
          rw [hpre]
          simpa using hb
        · intro _
          rfl
      · rename_i hb
        rw [ih (idx + i + 1) (by omega)]
        constructor
        · rintro ⟨s, hs, hocc⟩
          exact ⟨s, by omega, hocc⟩
        · rintro ⟨s, hs, hocc⟩
          rcases Nat.lt_or_ge s (idx + i + 1) with hlt | hge
          · have hs_eq : s = idx + i := by
              by_contra hne
              have hslt : s - idx < i := by omega
              have hp2 : kw.isPrefixOf ((text.drop idx).drop (s - idx)) = true := by
                rw [List.drop_drop, show idx + (s - idx) = s by omega]
                exact (wordOccAt_parts hocc).1
              rw [indexOfStr_min_prefixOf _ _ _ hidx (s - idx) hslt] at hp2
              exact absurd hp2 (by simp)
            exfalso
            apply hb
            obtain ⟨_, hl, hr⟩ := wordOccAt_parts hocc
            rw [hs_eq] at hl hr
            rw [hl, hr]
            rfl
          · exact ⟨s, hge, hocc⟩

lemma wordOccAt_le_length {text kw : GoStr} {s : Nat} (hk : kw ≠ [])
    (h : wordOccAt text kw s = true) : s ≤ text.length := by
  by_contra hgt
  have hpre := (wordOccAt_parts h).1
  rw [List.drop_eq_nil_of_le (by omega), isPrefixOf_nil_false kw hk] at hpre
  exact absurd hpre (by simp)

/-- For a non-empty keyword, the scanning loop of `containsWord` agrees
with the declarative whole-word containment test. -/
lemma containsWordAux_eq_wholeWord (text kw : GoStr) (hk : kw ≠ []) :
    containsWordAux text kw (text.length + 1) 0 = containsWholeWord text kw := by
  have h1 := containsWordAux_iff text kw hk (text.length + 1) 0 (by omega)
  have h2 : containsWholeWord text kw = true ↔ ∃ s, 0 ≤ s ∧ wordOccAt text kw s = true := by
    unfold containsWholeWord
    rw [List.any_eq_true]
    constructor
    · rintro ⟨s, _, hocc⟩
      exact ⟨s, by omega, hocc⟩
    · rintro ⟨s, _, hocc⟩
      exact ⟨s, List.mem_range.mpr (by
        have := wordOccAt_le_length hk hocc
        omega), hocc⟩
  cases hc : containsWordAux text kw (text.length + 1) 0 with
  | true => exact (h2.mpr (h1.mp hc)).symm
  | false =>
    cases hw : containsWholeWord text kw with
    | false => rfl
    | true => exact absurd (h1.mpr (h2.mp hw)) (by simp [hc])

lemma find?_congr_on {α : Type} (p q : α → Bool) :
    ∀ (l : List α), (∀ x ∈ l, p x = q x) → l.find? p = l.find? q := by
  intro l
  induction l with
  | nil => intro _; rfl
  | cons x t ih =>
    intro h
    rw [List.find?_cons, List.find?_cons, h x (List.mem_cons_self x t)]
    split
    · rfl
    · exact ih fun y hy => h y (List.mem_cons_of_mem x hy)

lemma any_congr_on {α : Type} (p q : α → Bool) (l : List α)
    (h : ∀ x ∈ l, p x = q x) : l.any p = l.any q := by
  induction l with
  | nil => rfl
  | cons x t ih =>
    simp only [List.any_cons]
    rw [h x (List.mem_cons_self x t), ih fun y hy => h y (List.mem_cons_of_mem x hy)]

/-- The function `inferCommitType` computes exactly the amended matching rule:
whole-word for single-word keywords, substring for multi-word ones. -/
lemma inferCommitType_eq_amended (prompt : GoStr) :
    inferCommitType prompt = inferCommitTypeAmended prompt := by
  have hkw : ∀ ct ∈ commitTypes, ∀ kw ∈ ct.1, kw ≠ [] := by decide
  have hfind :
      commitTypes.find? (fun ct => ct.1.any fun kw =>
        containsWord (prompt.map Char.toLower) kw) =
      commitTypes.find? (fun ct => ct.1.any fun kw =>
        keywordMatches (prompt.map Char.toLower) kw) := by
    refine find?_congr_on _ _ commitTypes fun ct hct => ?_
    refine any_congr_on _ _ _ fun kw hkw' => ?_
    have hne := hkw ct hct kw hkw'
    unfold containsWord keywordMatches
    split
    · rfl
    · exact containsWordAux_eq_wholeWord _ kw hne
  unfold inferCommitType inferCommitTypeAmended
  show (match commitTypes.find? (fun ct => ct.1.any fun kw =>
          containsWord (prompt.map Char.toLower) kw) with
        | some ct => ct.2
        | none => ("feat").toList) =
      (match commitTypes.find? (fun ct => ct.1.any fun kw =>
          keywordMatches (prompt.map Char.toLower) kw) with
        | some ct => ct.2
        | none => ("feat").toList)
  rw [hfind]

lemma inferCommitType_length (prompt : GoStr) :
    (inferCommitType prompt).length ≤ 8 := by
  have htab : ∀ ct ∈ commitTypes, ct.2.length ≤ 8 := by decide
  unfold inferCommitType
  show ((match commitTypes.find? (fun ct => ct.1.any fun kw =>
          containsWord (prompt.map Char.toLower) kw) with
        | some ct => ct.2
        | none => ("feat").toList) : GoStr).length ≤ 8
  cases h : commitTypes.find? (fun ct => ct.1.any fun kw =>
      containsWord (prompt.map Char.toLower) kw) with
  | none => simp only [h]; decide
  | some ct =>
    simp only [h]
    exact htab ct (List.mem_of_find?_eq_some h)

/-- The summary string `buildSubject` derives from the prompt: trimmed,
first character lowercased, trailing periods removed. -/
def summaryOf (prompt : GoStr) : GoStr :=
  match trimSpace prompt with
  | [] => []
  | c :: rest => ((Char.toLower c :: rest).reverse.dropWhile (· = '.')).reverse

/-- C9 (amended): for every non-blank task prompt the generated subject
line is `<type>: <summary>`, at most 72 characters and ellipsized with
`"..."` when the untruncated subject is longer; `<type>` is the first
match of the prompt against the ordered keyword table, case-insensitive,
whole-word for single-word keywords and *substring* for the keywords
containing a space (the source's `containsWord` falls back to substring
matching there), defaulting to `"feat"`; and the prompt
`"Fix the timeout setting"` yields `fix: fix the timeout setting`. -/
theorem commit_subject_spec (prompt : GoStr) (h : trimSpace prompt ≠ []) :
    ∃ s, buildSubject (inferCommitType prompt) prompt = some s ∧
      s.length ≤ 72 ∧
      ((inferCommitType prompt) ++ (": ").toList).isPrefixOf s = true ∧
      (72 < (inferCommitType prompt ++ (": ").toList ++ summaryOf prompt).length →
        s = (inferCommitType prompt ++ (": ").toList ++ summaryOf prompt).take 69 ++
          ("...").toList) ∧
      inferCommitType prompt = inferCommitTypeAmended prompt ∧
      buildSubject (inferCommitType (("Fix the timeout setting").toList))
          (("Fix the timeout setting").toList) =
        some (("fix: fix the timeout setting").toList) := by
  cases heq : trimSpace prompt with
  | nil => exact absurd heq h
  | cons c rest =>
    have hsum : summaryOf prompt =
        ((Char.toLower c :: rest).reverse.dropWhile (· = '.')).reverse := by
      unfold summaryOf
      rw [heq]
    set ct := inferCommitType prompt with hct
    have hassoc : ct ++ (": ").toList ++ summaryOf prompt =
        ct ++ ((": ").toList ++ summaryOf prompt) := by
      rw [List.append_assoc]
    have hbs : buildSubject ct prompt =
        some (if 72 < (ct ++ (": ").toList ++ summaryOf prompt).length then
            (ct ++ (": ").toList ++ summaryOf prompt).take 69 ++ ("...").toList
          else ct ++ (": ").toList ++ summaryOf prompt) := by
      unfold buildSubject
      rw [heq, hsum]
    have hctlen : ct.length ≤ 8 := inferCommitType_length prompt
    have hplen : (ct ++ (": ").toList).length ≤ 10 := by
      simp [List.length_append]
      omega
    refine ⟨_, hbs, ?_, ?_, ?_, inferCommitType_eq_amended prompt, by decide⟩
    · split
      · rename_i hlong
        rw [List.length_append]
        have h69 : ((ct ++ (": ").toList ++ summaryOf prompt).take 69).length = 69 := by
          rw [List.length_take]
          omega
        simp [h69]
      · omega
    · split
      · rename_i hlong
        have hsplit : (ct ++ (": ").toList ++ summaryOf prompt).take 69 =
            (ct ++ (": ").toList) ++ (summaryOf prompt).take (69 - (ct ++ (": ").toList).length) := by
          rw [List.take_append_eq_append_take,
            List.take_of_length_le (by omega : (ct ++ (": ").toList).length ≤ 69)]
        rw [hsplit, List.append_assoc]
        exact isPrefixOf_append_self _ _
      · exact isPrefixOf_append_self _ _
    · intro hlong
      rw [if_pos hlong]

def c9prompt : GoStr := ("unclean upland").toList

/-- Counterexample to C9 as stated: the prompt `"unclean upland"`
contains `"clean up"` only as a substring, never as whole words, yet the
code classifies it `refactor`; under the claim's whole-word reading no
keyword matches and the type would default to `feat`. -/
theorem commit_type_wholeword_counterexample :
    inferCommitType c9prompt = ("refactor").toList ∧
      inferCommitTypeSpec c9prompt = ("feat").toList ∧
      ("refactor").toList ≠ ("feat").toList :=
  ⟨by decide, by decide, by decide⟩

/-- Witness for the amended C9 at the prompt of the spec's end-to-end
scenario. -/
theorem commit_subject_spec_witness :
    trimSpace (("Fix the timeout setting").toList) ≠ [] ∧
      ∃ s, buildSubject (inferCommitType (("Fix the timeout setting").toList))
          (("Fix the timeout setting").toList) = some s ∧
        s.length ≤ 72 ∧
        ((inferCommitType (("Fix the timeout setting").toList)) ++ (": ").toList).isPrefixOf s = true ∧
        (72 < (inferCommitType (("Fix the timeout setting").toList) ++ (": ").toList ++
            summaryOf (("Fix the timeout setting").toList)).length →
          s = (inferCommitType (("Fix the timeout setting").toList) ++ (": ").toList ++
              summaryOf (("Fix the timeout setting").toList)).take 69 ++ ("...").toList) ∧
        inferCommitType (("Fix the timeout setting").toList) =
          inferCommitTypeAmended (("Fix the timeout setting").toList) ∧
        buildSubject (inferCommitType (("Fix the timeout setting").toList))
            (("Fix the timeout setting").toList) =
          some (("fix: fix the timeout setting").toList) :=
  ⟨by decide, commit_subject_spec (("Fix the timeout setting").toList) (by decide)⟩

/-! ### C5: the fuzzy matching stage -/

/-- Selection rule as the claim words it: the earliest window whose
similarity meets the threshold and is maximal over all windows
(ties broken by earliest position). -/
def bestWindowIdx (contentLines : List GoStr) (search : GoStr) (searchLen : Nat)
    (t : ℚ) : Option Nat :=
  (List.range (contentLines.length - searchLen + 1)).find? fun i =>
    decide (t ≤ similarity (windowAt contentLines searchLen i) search ∧
      (∀ j, j < contentLines.length - searchLen + 1 →
        similarity (windowAt contentLines searchLen j) search ≤
          similarity (windowAt contentLines searchLen i) search) ∧
      (∀ j, j < i →
        similarity (windowAt contentLines searchLen j) search <
          similarity (windowAt contentLines searchLen i) search))

/-- The Fuzzy stage as described by the claim (and spec §4.5): when the
search has more lines than the content, compare against the whole
content; otherwise select the highest-similarity window `≥ threshold`,
earliest on ties, with `start` the byte offset of the window's first
line and `end = start + len(window)`. -/
def fuzzyMatchSpec (content search : GoStr) (t : ℚ) : Option MatchResult :=
  let contentLines := splitNl content
  let searchLen := (splitNl search).length
  if contentLines.length < searchLen then
    let sim := similarity content search
    if t ≤ sim then some ⟨0, content.length, .fuzzy, sim⟩ else none
  else
    (bestWindowIdx contentLines search searchLen t).map fun i =>
      ⟨byteOffsetOfLine contentLines i,
       byteOffsetOfLine contentLines i + (windowAt contentLines searchLen i).length,
       .fuzzy, similarity (windowAt contentLines searchLen i) search⟩

lemma scan_foldl_inv (sims : Nat → ℚ) (mk : Nat → MatchResult) (t : ℚ)
    (hmk : ∀ i, (mk i).similarity = sims i) :
    ∀ m,
      (((List.range m).foldl (fun best i =>
          match best with
          | none => if t ≤ sims i then some (mk i) else none
          | some b => if t ≤ sims i ∧ b.similarity < sims i then some (mk i) else some b)
        none) = none ∧ ∀ i, i < m → sims i < t) ∨
      (∃ i, i < m ∧
        ((List.range m).foldl (fun best i =>
          match best with
          | none => if t ≤ sims i then some (mk i) else none
          | some b => if t ≤ sims i ∧ b.similarity < sims i then some (mk i) else some b)
        none) = some (mk i) ∧ t ≤ sims i ∧
        (∀ j, j < m → sims j ≤ sims i) ∧ (∀ j, j < i → sims j < sims i)) := by
  intro m
  induction m with
  | zero => exact Or.inl ⟨rfl, fun i hi => absurd hi (by omega)⟩
  | succ m ih =>
    rw [List.range_succ, List.foldl_append]
    rcases ih with ⟨hnone, hall⟩ | ⟨i, him, heq, hti, hmax, hstrict⟩
    · rw [hnone]
      by_cases ht : t ≤ sims m
      · refine Or.inr ⟨m, by omega, ?_, ht, ?_, ?_⟩
        · simp only [List.foldl_cons, List.foldl_nil]
          rw [if_pos ht]
        · intro j hj
          rcases Nat.lt_or_ge j m with hj' | hj'
          · exact le_of_lt (lt_of_lt_of_le (hall j hj') ht)
          · have : j = m := by omega
            subst this
            exact le_refl _
        · intro j hj
          exact lt_of_lt_of_le (hall j hj) ht
      · refine Or.inl ⟨?_, ?_⟩
        · simp only [List.foldl_cons, List.foldl_nil]
          rw [if_neg ht]
        · intro j hj
          rcases Nat.lt_or_ge j m with hj' | hj'
          · exact hall j hj'
          · have : j = m := by omega
            subst this
            exact lt_of_not_le ht
    · rw [heq]
      simp only [List.foldl_cons, List.foldl_nil, hmk i]
      by_cases hcond : t ≤ sims m ∧ sims i < sims m
      · refine Or.inr ⟨m, by omega, ?_, hcond.1, ?_, ?_⟩
        · rw [if_pos hcond]
        · intro j hj
          rcases Nat.lt_or_ge j m with hj' | hj'
          · exact le_of_lt (lt_of_le_of_lt (hmax j hj') hcond.2)
          · have : j = m := by omega
            subst this
            exact le_refl _
        · intro j hj
          exact lt_of_le_of_lt (hmax j hj) hcond.2
      · refine Or.inr ⟨i, by omega, ?_, hti, ?_, hstrict⟩
        · rw [if_neg hcond]
        · intro j hj
          rcases Nat.lt_or_ge j m with hj' | hj'
          · exact hmax j hj'
          · have : j = m := by omega
            subst this
            rcases Decidable.not_and_iff_or_not.mp hcond with h' | h'
            · exact le_of_lt (lt_of_lt_of_le (lt_of_not_le h') hti)
            · exact le_of_not_lt h'

lemma scan_foldl_eq_find (sims : Nat → ℚ) (mk : Nat → MatchResult) (t : ℚ)
    (hmk : ∀ i, (mk i).similarity = sims i) (m : Nat) :
    ((List.range m).foldl (fun best i =>
        match best with
        | none => if t ≤ sims i then some (mk i) else none
        | some b => if t ≤ sims i ∧ b.similarity < sims i then some (mk i) else some b)
      none) =
      ((List.range m).find? fun i =>
        decide (t ≤ sims i ∧ (∀ j, j < m → sims j ≤ sims i) ∧
          (∀ j, j < i → sims j < sims i))).map mk := by
  rcases scan_foldl_inv sims mk t hmk m with ⟨hnone, hall⟩ | ⟨i, him, heq, hti, hmax, hstrict⟩
  · rw [hnone]
    have hfind : ((List.range m).find? fun i =>
        decide (t ≤ sims i ∧ (∀ j, j < m → sims j ≤ sims i) ∧
          (∀ j, j < i → sims j < sims i))) = none := by
      rw [List.find?_eq_none]
      intro x hx
      simp only [decide_eq_true_eq, not_and]
      intro hc
      exact absurd hc (not_le_of_lt (hall x (List.mem_range.mp hx)))
    rw [hfind]
    rfl
  · rw [heq]
    have hne : ((List.range m).find? fun i =>
        decide (t ≤ sims i ∧ (∀ j, j < m → sims j ≤ sims i) ∧
          (∀ j, j < i → sims j < sims i))) ≠ none := by
      rw [Ne, List.find?_eq_none]
      intro hnone
      have := hnone i (List.mem_range.mpr him)
      simp only [decide_eq_true_eq] at this
      exact this ⟨hti, hmax, hstrict⟩
    obtain ⟨j, hj⟩ := Option.ne_none_iff_exists'.mp hne
    have hPj := List.find?_some hj
    have hjm := List.mem_range.mp (List.mem_of_find?_eq_some hj)
    simp only [decide_eq_true_eq] at hPj
    obtain ⟨htj, hmaxj, hstrictj⟩ := hPj
    have hij : i = j := by
      have h1 : sims i ≤ sims j := hmaxj i him
      have h2 : sims j ≤ sims i := hmax j hjm
      rcases Nat.lt_trichotomy i j with h | h | h
      · exact absurd (hstrictj i h) (by rw [le_antisymm h1 h2]; exact lt_irrefl _)
      · exact h
      · exact absurd (hstrict j h) (by rw [le_antisymm h1 h2]; exact lt_irrefl _)
    rw [hj, hij]
    rfl

/-- C5 (amended): for non-empty content and search (the stage refuses an
empty search or content outright), the Fuzzy stage behaves exactly as
the claim specifies: whole-content comparison when the search has more
lines than the content, otherwise the highest-similarity window meeting
the threshold, earliest on ties, with the stated byte range. -/
theorem fuzzy_stage_spec (content search : GoStr) (t : ℚ)
    (hc : content ≠ []) (hs : search ≠ []) :
    fuzzyMatch content search t = fuzzyMatchSpec content search t := by
  unfold fuzzyMatch fuzzyMatchSpec
  rw [if_neg (by simp [hc, hs])]
  show (if (splitNl content).length < (splitNl search).length then
      (if t ≤ similarity content search then
        some ⟨0, content.length, .fuzzy, similarity content search⟩ else none)
    else fuzzyScan (splitNl content) search ((splitNl search).length) t) =
    (if (splitNl content).length < (splitNl search).length then
      (if t ≤ similarity content search then
        some ⟨0, content.length, .fuzzy, similarity content search⟩ else none)
    else (bestWindowIdx (splitNl content) search ((splitNl search).length) t).map fun i =>
      ⟨byteOffsetOfLine (splitNl content) i,
       byteOffsetOfLine (splitNl content) i +
         (windowAt (splitNl content) ((splitNl search).length) i).length,
       .fuzzy, similarity (windowAt (splitNl content) ((splitNl search).length) i) search⟩)
  split
  · rfl
  · exact scan_foldl_eq_find
      (fun i => similarity (windowAt (splitNl content) ((splitNl search).length) i) search)
      (fun i => ⟨byteOffsetOfLine (splitNl content) i,
        byteOffsetOfLine (splitNl content) i +
          (windowAt (splitNl content) ((splitNl search).length) i).length,
        .fuzzy, similarity (windowAt (splitNl content) ((splitNl search).length) i) search⟩)
      t (fun i => rfl) ((splitNl content).length - (splitNl search).length + 1)

/-- Counterexample to C5 as stated: with an empty search string the code
returns no match, while the claim's selection rule (with the stage's own
similarity function, for which two empty strings are identical) accepts
the empty window of `"x\n"`'s trailing empty line. -/
theorem fuzzy_empty_search_counterexample :
    fuzzyMatch (("x\n").toList) [] 1 = none ∧
      fuzzyMatchSpec (("x\n").toList) [] 1 = some ⟨2, 2, .fuzzy, 1⟩ ∧
      similarity [] [] = 1 :=
  ⟨by decide, by decide, by decide⟩

/-- Witness for the amended C5. -/
theorem fuzzy_stage_spec_witness :
    ((("a\na").toList : GoStr) ≠ [] ∧ (("a").toList : GoStr) ≠ []) ∧
      fuzzyMatch (("a\na").toList) (("a").toList) 1 =
        fuzzyMatchSpec (("a\na").toList) (("a").toList) 1 :=
  ⟨⟨by decide, by decide⟩,
   fuzzy_stage_spec (("a\na").toList) (("a").toList) 1 (by decide) (by decide)⟩
